import Mathlib

/-! # lambda_db: HTTP handlers and the text index (`http_handlers.go`)

A shallow embedding of the handlers of `http_handlers.go` and of the index built by
`makeIndex`, followed by the properties established about them.

Conventions of the embedding:

* a Go `string` / `[]byte` is a list of bytes (`Str`);
* a Go `map[string]V` is a list of entries with pairwise distinct keys (`GoMap V`);
* a run-time panic (index out of range, invalid slice bounds, nil dereference) is an
  explicit `none` / `panic` result;
* code that lives outside `http_handlers.go` (the record type `Item` and its methods, the
  query engine, the Go standard library) is a parameter of the definitions.
-/

namespace LambdaDB

/-! ## Strings -/

/-- Go `string` and `[]byte`: a sequence of bytes. -/
abbrev Str := List UInt8

/-- Go's `<` on strings: byte-wise lexicographic comparison. -/
def strLess : Str → Str → Bool
  | [], [] => false
  | [], _ :: _ => true
  | _ :: _, [] => false
  | a :: as, b :: bs => if a < b then true else if b < a then false else strLess as bs

/-- `strings.Join(keys, sep)`. -/
def join (keys : List Str) (sep : Str) : Str := List.intercalate sep keys

/-- The string `s` occurs in `data` at byte offset `o`. -/
def occursAt (data s : Str) (o : Nat) : Prop := (data.drop o).take s.length = s

instance (data s : Str) (o : Nat) : Decidable (occursAt data s o) := by
  unfold occursAt; infer_instance

/-! ## `getStringFromIndex` -/

/-- First loop of `getStringFromIndex`: `for i := index - 1; i >= 0; i--`, called with the
number `i + 1` of bytes still to visit. Returns `start`: one past the nearest zero byte to the
left, `0` (the initial value of `start`) when there is none, and `none` when `data[i]` is out
of range. -/
def scanStart (data : Str) : Nat → Option Nat
  | 0 => some 0
  | i + 1 =>
    match data[i]? with
    | none => none
    | some b => if b = 0 then some (i + 1) else scanStart data i

/-- Second loop of `getStringFromIndex`: `for i := index + 1; i < len(data); i++`, run over
the bytes `data[i:]`. Returns `end`: the position of the nearest zero byte to the right, and
`0` (the initial value of `end`) when there is none. -/
def scanEnd : Str → Nat → Nat
  | [], _ => 0
  | b :: rest, i => if b = 0 then i else scanEnd rest (i + 1)

/-- The pair `(start, end)` computed by the two loops of `getStringFromIndex`. -/
def getBounds (data : Str) (index : Nat) : Option (Nat × Nat) :=
  match scanStart data index with
  | none => none
  | some start => some (start, scanEnd (data.drop (index + 1)) (index + 1))

/-- `getStringFromIndex(data, index)` for an offset `index ≥ 0`: `string(data[start:end])`,
and `none` when the slice expression panics (`start > end`). -/
def getStringFromIndex (data : Str) (index : Nat) : Option Str :=
  match getBounds data index with
  | none => none
  | some (start, stop) =>
    if start ≤ stop ∧ stop ≤ data.length then some ((data.drop start).take (stop - start))
    else none

/-- The blob built at the end of `makeIndex`:
`"\x00" + strings.Join(keys, "\x00") + "\x00"`. -/
def indexBlob (keys : List Str) : Str := [0] ++ join keys [0] ++ [0]

/-- Offset of the first byte of the `j`-th key inside `indexBlob keys`. -/
def keyOffset (keys : List Str) (j : Nat) : Nat :=
  1 + ((keys.take j).map (fun k => k.length + 1)).sum

/-- Every key preceded by its separator: the blob without its final byte. -/
def heads (keys : List Str) : Str := keys.flatMap (fun k => 0 :: k)

/-- Every key followed by its separator: the blob without its first byte. -/
def tokens (keys : List Str) : Str := keys.flatMap (fun k => k ++ [0])

/-! ## Go maps -/

/-- Go `map[string]V`: entries with pairwise distinct keys. -/
abbrev GoMap (V : Type) := List (Str × V)

/-- Map lookup with the comma-ok form `v, ok := m[k]`. -/
def mapGet {V : Type} : GoMap V → Str → Option V
  | [], _ => none
  | (k', v) :: m, k => if k' = k then some v else mapGet m k

/-- Map assignment `m[k] = v`. -/
def mapSet {V : Type} : GoMap V → Str → V → GoMap V
  | [], k, v => [(k, v)]
  | (k', v') :: m, k, v => if k' = k then (k', v) :: m else (k', v') :: mapSet m k v

/-- The keys of a map. -/
def mapKeys {V : Type} (m : GoMap V) : List Str := m.map Prod.fst

/-- Indexing `m[k]` of a map of slices: the nil (empty) slice when `k` is absent. -/
def mapIndex {α : Type} (m : GoMap (List α)) (k : Str) : List α := (mapGet m k).getD []

/-! ## `makeIndex` -/

/-- What `makeIndex` uses from outside `http_handlers.go`. -/
structure Deps (Item : Type) where
  /-- The method `Item.GetIndex`. -/
  GetIndex : Item → Str
  /-- The method `Item.Row`. -/
  Row : Item → List Str
  /-- The library function `strings.ToLower`. -/
  toLower : Str → Str
  /-- The library function `sort.Slice`, given the `less` function on elements. -/
  sortSlice : (Item → Item → Bool) → List Item → List Item
  /-- The order in which `for key := range kSet` visits the keys of the map. -/
  rangeKeys : List Str → List Str

/-- The `less` closure passed to `sort.Slice` by `makeIndex`. -/
def indexLess {Item : Type} (d : Deps Item) (a b : Item) : Bool :=
  strLess (d.GetIndex a) (d.GetIndex b)

/-- The documented contract of `sort.Slice` for the closure of `makeIndex`: the result is a
permutation of the input and no element is less than an earlier one. The library documents
that the sort is not guaranteed to be stable. -/
def SortSliceSpec {Item : Type} (d : Deps Item) : Prop :=
  ∀ l : List Item, (d.sortSlice (indexLess d) l).Perm l ∧
    (d.sortSlice (indexLess d) l).Pairwise (fun a b => indexLess d b a = false)

/-- The language guarantee for `range` over a map: every key is visited exactly once. -/
def RangeSpec {Item : Type} (d : Deps Item) : Prop :=
  ∀ l : List Str, (d.rangeKeys l).Perm l

/-- The three maps filled by the double loop of `makeIndex`. -/
structure IndexMaps (Item : Type) where
  LOOKUP : GoMap (List Item)
  LOOKUPINDEX : GoMap (List Nat)
  kSet : GoMap Bool

/-- Body of the inner loop of `makeIndex` for one column value `v` of `item`. -/
def indexValue {Item : Type} (toLower : Str → Str) (index : Nat) (item : Item)
    (m : IndexMaps Item) (v : Str) : IndexMaps Item :=
  let v := toLower v
  { kSet := mapSet m.kSet v true
    LOOKUP := mapSet m.LOOKUP v (mapIndex m.LOOKUP v ++ [item])
    LOOKUPINDEX := mapSet m.LOOKUPINDEX v (mapIndex m.LOOKUPINDEX v ++ [index]) }

/-- Body of the outer loop of `makeIndex`: `for _, v := range item.Row()`. -/
def indexItem {Item : Type} (toLower : Str → Str) (Row : Item → List Str)
    (m : IndexMaps Item) (p : Nat × Item) : IndexMaps Item :=
  (Row p.2).foldl (indexValue toLower p.1 p.2) m

/-- The double loop of `makeIndex`: `for index, item := range ITEMS`, from empty maps. -/
def indexItems {Item : Type} (toLower : Str → Str) (Row : Item → List Str)
    (items : List Item) : IndexMaps Item :=
  items.enum.foldl (indexItem toLower Row) ⟨[], [], []⟩

/-- The global state written by `makeIndex`. The suffix array `INDEX` is a function of
`STR_INDEX` and is not represented separately. -/
structure IndexState (Item : Type) where
  ITEMS : List Item
  LOOKUP : GoMap (List Item)
  LOOKUPINDEX : GoMap (List Nat)
  STR_INDEX : Str

/-- The function `makeIndex`, run on the dataset `ITEMS`. -/
def makeIndex {Item : Type} (d : Deps Item) (ITEMS : List Item) : IndexState Item :=
  let items := d.sortSlice (indexLess d) ITEMS
  let m := indexItems d.toLower d.Row items
  let keys := d.rangeKeys (mapKeys m.kSet)
  { ITEMS := items
    LOOKUP := m.LOOKUP
    LOOKUPINDEX := m.LOOKUPINDEX
    STR_INDEX := indexBlob keys }

/-- One execution of the inner-loop body of `makeIndex`, on a triple
(position, item, lowercased column value). -/
def indexEntry {Item : Type} (m : IndexMaps Item) (e : Nat × Item × Str) : IndexMaps Item :=
  { kSet := mapSet m.kSet e.2.2 true
    LOOKUP := mapSet m.LOOKUP e.2.2 (mapIndex m.LOOKUP e.2.2 ++ [e.2.1])
    LOOKUPINDEX := mapSet m.LOOKUPINDEX e.2.2 (mapIndex m.LOOKUPINDEX e.2.2 ++ [e.1]) }

/-- The triples visited by the inner loop for one item. -/
def itemEntries {Item : Type} (toLower : Str → Str) (Row : Item → List Str)
    (p : Nat × Item) : List (Nat × Item × Str) :=
  (Row p.2).map (fun v => (p.1, p.2, toLower v))

/-- The triples visited by the double loop, in order, positions counted from `n`. -/
def entriesFrom {Item : Type} (toLower : Str → Str) (Row : Item → List Str)
    (n : Nat) (items : List Item) : List (Nat × Item × Str) :=
  (items.enumFrom n).flatMap (itemEntries toLower Row)

/-- Items with equal index keys keep their relative order: for every key, the items carrying
it appear in `after` in the order they have in `before`. -/
def KeepsOrder {Item : Type} (d : Deps Item) (before after : List Item) : Prop :=
  ∀ k : Str, after.filter (fun x => d.GetIndex x = k) = before.filter (fun x => d.GetIndex x = k)

/-! ## HTTP handlers -/

/-- What a handler leaves behind: either it returns, having written `status` and possibly a
body, or it panics, `status` being the status written before the panic, if any. -/
inductive Reply (B : Type) where
  | done (status : Nat) (body : Option B)
  | panic (status : Option Nat)
deriving DecidableEq

/-- The three ways the validation loop of `contextAddRest` ends. -/
inductive Validation where
  /-- The loop ran to its end. -/
  | pass
  /-- Strict mode met an item equal to `Item{}`. -/
  | reject
  /-- The dereference `*item` met a nil pointer. -/
  | nilDeref
deriving DecidableEq

/-- The loop `for n, item := range items` of `contextAddRest`. `Items` is a slice of
pointers: an entry is `none` for a nil pointer (what `encoding/json` stores for a JSON `null`
element) and `some x` for a pointer to the record `x`; `zero` is `Item{}`. -/
def validateBatch {Item : Type} [DecidableEq Item] (zero : Item) (strictMode : Bool) :
    List (Option Item) → Validation
  | [] => Validation.pass
  | none :: _ => Validation.nilDeref
  | some x :: rest =>
    if x = zero then
      if strictMode then Validation.reject else validateBatch zero strictMode rest
    else validateBatch zero strictMode rest

/-- What `contextAddRest` did: the status it wrote, the batch it sent on `itemChan`, and
whether it panicked. -/
structure AddReply (Item : Type) where
  status : Option Nat
  sent : Option (List (Option Item))
  panicked : Bool
deriving DecidableEq

/-- The handler returned by `contextAddRest`; `decoded` is the result of
`jsonDecoder.Decode(&items)`, `none` when it returns an error. -/
def contextAddRest {Item : Type} [DecidableEq Item] (zero : Item) (strictMode : Bool)
    (decoded : Option (List (Option Item))) : AddReply Item :=
  match decoded with
  | none => { status := some 500, sent := none, panicked := false }
  | some items =>
    match validateBatch zero strictMode items with
    | Validation.nilDeref => { status := none, sent := none, panicked := true }
    | Validation.reject => { status := some 406, sent := none, panicked := false }
    | Validation.pass => { status := some 204, sent := some items, panicked := false }

/-- What `loadRest` meets when it reads the snapshot file. -/
inductive Snapshot where
  /-- The function `os.Open` returns an error. -/
  | openFails
  /-- The function `gzip.NewReader` returns an error. -/
  | gzipFails
  /-- The function `ioutil.ReadAll` returns an error. -/
  | readFails
  /-- The file decompresses to the bytes `s`. -/
  | payload (s : Str)
deriving DecidableEq

/-- The failures of loading named by the specification: the three I/O failures, and a payload
that `json.Unmarshal` rejects. -/
def loadFails {Item : Type} (jsonUnmarshal : Str → List Item → List Item × Bool) :
    Snapshot → Bool
  | Snapshot.payload s => (jsonUnmarshal s []).2
  | _ => true

/-- The handler `loadRest`. `jsonUnmarshal s target` is `json.Unmarshal(s, &target)`: the new
value of the target and whether an error was returned; `indexed` is
`SETTINGS.Get("indexed") == "y"`. Returns the new global state and the body written. -/
def loadRest {Item : Type} (d : Deps Item)
    (jsonUnmarshal : Str → List Item → List Item × Bool) (indexed : Bool)
    (snap : Snapshot) (st : IndexState Item) : IndexState Item × Option String :=
  match snap with
  | Snapshot.openFails => (st, some "500 - could not load data")
  | Snapshot.gzipFails => (st, none)
  | Snapshot.readFails => (st, none)
  | Snapshot.payload s =>
    -- ITEMS = make(Items, 0, 100*1000); json.Unmarshal(s, &ITEMS), the error is dropped
    let items := (jsonUnmarshal s []).1
    if indexed then (makeIndex d items, none)
    else ({ st with ITEMS := items }, none)

/-- What the query handlers use from outside `http_handlers.go`; `Query` is the parsed query
descriptor and `R` the result type of a reducer (`map[string]string`). -/
structure Ops (Item Query R : Type) where
  /-- The method `Item.Columns`. -/
  Columns : Item → List Str
  /-- The function `runQuery` (without the timing it also returns). -/
  runQuery : List Item → Query → List Item
  /-- The function `sortLimit`. -/
  sortLimit : List Item → Query → List Item
  /-- The method `Query.EarlyExit`. -/
  EarlyExit : Query → Bool
  /-- Whether `query.ReturnFormat == "csv"`. -/
  returnsCsv : Query → Bool
  /-- The function `groupByRunner`. -/
  groupByRunner : List Item → Str → GoMap (List Item)
  /-- The map `operations.Reduce`. -/
  Reduce : GoMap (List Item → R)
  /-- The map `operations.Getters`. -/
  Getters : GoMap (Item → Str)
  /-- The function `runTypeAheadQuery` (without the timing it also returns). -/
  runTypeAheadQuery : List Item → Str → Query → List Str

/-- A request as the handlers read it: the parsed query, `r.URL.Path`, and the first value of
the URL parameters `groupby` and `reduce` when present. -/
structure Request (Query : Type) where
  query : Query
  path : Str
  groupby : Option Str
  reduce : Option Str

/-- The struct `ShowItem`. -/
structure ShowItem where
  IsShow : Bool
  Label : Str
  Name : Str
deriving DecidableEq

/-- The struct `searchResponse`, with the fields of its `Meta` inlined. -/
structure SearchResponse (Item : Type) where
  Count : Nat
  Data : List Item
  Fields : List ShowItem
  View : String
deriving DecidableEq

/-- The function `makeResp`; `none` when `items[0]` is out of range. -/
def makeResp {Item : Type} (Columns : Item → List Str) (items : List Item) :
    Option (SearchResponse Item) :=
  match items with
  | [] => none
  | first :: _ =>
    some { Count := items.length
           Data := items
           Fields := (Columns first).map (fun column => ⟨true, column, column⟩)
           View := "table" }

/-- The handler returned by `contextSearchRest`. -/
def contextSearchRest {Item Query R : Type} (o : Ops Item Query R) (ITEMS : List Item)
    (r : Request Query) : Reply (SearchResponse Item) :=
  let items := o.runQuery ITEMS r.query
  if items.length = 0 then Reply.done 404 none
  else
    let items := if !o.EarlyExit r.query then o.sortLimit items r.query else items
    -- w.WriteHeader(http.StatusOK) comes before makeResp(items)
    match makeResp o.Columns items with
    | none => Reply.panic (some 200)
    | some response => Reply.done 200 (some response)

/-- The path prefix `"/typeahead/"` whose length `contextTypeAheadRest` cuts off. -/
def typeaheadRoute : Str := [47, 116, 121, 112, 101, 97, 104, 101, 97, 100, 47]

/-- The column name computed by `contextTypeAheadRest`:
`column := r.URL.Path[len("/typeahead/"):]`, then one trailing `'/'` removed. The result is
`none` when the slice expression or `column[len(column)-1]` is out of range. -/
def typeaheadColumn (path : Str) : Option Str :=
  if path.length < typeaheadRoute.length then none
  else
    let column := path.drop typeaheadRoute.length
    match column.getLast? with
    | none => none
    | some last => if last = 47 then some column.dropLast else some column

/-- The handler returned by `contextTypeAheadRest`. -/
def contextTypeAheadRest {Item Query R : Type} (o : Ops Item Query R) (ITEMS : List Item)
    (r : Request Query) : Reply (List Str) :=
  match typeaheadColumn r.path with
  | none => Reply.panic none
  | some column =>
    match mapGet o.Getters column with
    | none => Reply.done 404 none
    | some _ =>
      let results := o.runTypeAheadQuery ITEMS column r.query
      if results.length = 0 then Reply.done 404 none
      else Reply.done 200 (some results)

/-- What `contextListRest` encodes into the response body. -/
inductive ListBody (Item R : Type) where
  /-- The function `writeCSV`: one row per item. -/
  | csv (rows : List (List Str))
  /-- The item list, JSON encoded. -/
  | items (items : List Item)
  /-- The reduced groups, JSON encoded. -/
  | reduced (result : GoMap R)
  /-- The grouped items, JSON encoded. -/
  | grouped (groups : GoMap (List Item))

/-- The loop `for key, val := range groupByItems { result[key] = reduceFunc(val) }`. -/
def reduceGroups {Item R : Type} (reduceFunc : List Item → R) (groups : GoMap (List Item)) :
    GoMap R :=
  groups.foldl (fun result kv => mapSet result kv.1 (reduceFunc kv.2)) []

/-- The items `contextListRest` works on after `runQuery` and `sortLimit`. -/
def listItems {Item Query R : Type} (o : Ops Item Query R) (ITEMS : List Item)
    (r : Request Query) : List Item :=
  let items := o.runQuery ITEMS r.query
  if !o.EarlyExit r.query then o.sortLimit items r.query else items

/-- The handler returned by `contextListRest`: the status written by `setHeader` (a later
`WriteHeader(404)` does not replace it) and the body; `Row` is the method `Item.Row`. -/
def contextListRest {Item Query R : Type} (o : Ops Item Query R) (Row : Item → List Str)
    (ITEMS : List Item) (r : Request Query) : Nat × Option (ListBody Item R) :=
  let items := listItems o ITEMS r
  let status := if items.length > 0 then 200 else 404
  match r.groupby with
  | none =>
    if o.returnsCsv r.query then (status, some (ListBody.csv (items.map Row)))
    else (status, some (ListBody.items items))
  | some groupBy =>
    let groupByItems := o.groupByRunner items groupBy
    match r.reduce with
    | some reduceName =>
      match mapGet o.Reduce reduceName with
      | none => (status, some (ListBody.reduced []))
      | some reduceFunc =>
        let result := reduceGroups reduceFunc groupByItems
        if result.length = 0 then (status, none)
        else (status, some (ListBody.reduced result))
    | none => (status, some (ListBody.grouped groupByItems))

/-! ## A concrete instance

The record type and the library routines below instantiate the parameters of the embedding
at concrete inputs. -/

/-- Modelled from the spec: the record type `Item` is declared outside `http_handlers.go`.
A record has ordered column values and a designated index-key value. -/
structure DemoItem where
  key : Str
  row : List Str
deriving DecidableEq

/-- Exchange of `l[i]` and `l[j]` (the `Swap` of the sorted slice). -/
def swapAt {α : Type} (l : List α) (i j : Nat) : List α :=
  match l[i]?, l[j]? with
  | some x, some y => (l.set i y).set j x
  | _, _ => l

/-- One step of the Shell pass with gap 6: `if less(i, i-6) then swap(i, i-6)`. -/
def gapStep {α : Type} (less : α → α → Bool) (l : List α) (i : Nat) : List α :=
  match l[i]?, l[i - 6]? with
  | some x, some y => if less x y then swapAt l i (i - 6) else l
  | _, _ => l

/-- The Shell pass with gap 6: `for i := a + 6; i < b; i++`. -/
def shellPass {α : Type} (less : α → α → Bool) (l : List α) : List α :=
  (List.range' 6 (l.length - 6)).foldl (gapStep less) l

/-- Insertion of `x` into a sorted run, behind every element it is not less than: where the
inner loop of insertion sort leaves it. -/
def insertSorted {α : Type} (less : α → α → Bool) (x : α) : List α → List α
  | [] => [x]
  | y :: ys => if less x y then x :: y :: ys else y :: insertSorted less x ys

/-- Insertion sort, left to right. -/
def insertionSortFunc {α : Type} (less : α → α → Bool) (l : List α) : List α :=
  l.foldl (fun sorted x => insertSorted less x sorted) []

/-- The routine `sort.Slice` of the Go releases up to 1.18 runs on a slice of at most 12
elements: one Shell pass with gap 6, then insertion sort. On any input it returns a sorted
permutation. -/
def legacySortSlice {α : Type} (less : α → α → Bool) (l : List α) : List α :=
  insertionSortFunc less (shellPass less l)

/-- The ASCII case of `strings.ToLower`. -/
def asciiLower (s : Str) : Str :=
  s.map (fun b => if 65 ≤ b ∧ b ≤ 90 then b + 32 else b)

/-- Dependencies of `makeIndex` for `DemoItem`: the legacy `sort.Slice`, map iteration in
insertion order. -/
def demoDeps : Deps DemoItem :=
  { GetIndex := DemoItem.key
    Row := DemoItem.row
    toLower := asciiLower
    sortSlice := legacySortSlice
    rangeKeys := id }

/-- Seven records: two with index key `"b"` first, one with index key `"a"` last. -/
def demoItems : List DemoItem :=
  [⟨[98], [[98], [49]]⟩, ⟨[98], [[98], [50]]⟩, ⟨[99], [[99]]⟩, ⟨[99], [[99]]⟩,
   ⟨[99], [[99]]⟩, ⟨[99], [[99]]⟩, ⟨[97], [[65]]⟩]

/-- A `json.Unmarshal` that rejects every payload and leaves its target as it is. -/
def rejectAll (_ : Str) (target : List DemoItem) : List DemoItem × Bool := (target, true)

/-- Query operations for `DemoItem` and a query that is a page number: every item matches,
only page 1 has items, one getter
(`"k"`) and one reducer (`"n"`, the group size) are registered. -/
def demoOps : Ops DemoItem Nat Nat :=
  { Columns := fun _ => [[107], [114]]
    runQuery := fun items _ => items
    sortLimit := fun items page => if page = 1 then items else []
    EarlyExit := fun _ => false
    returnsCsv := fun _ => false
    groupByRunner := fun items _ =>
      items.foldl (fun g x => mapSet g x.key (mapIndex g x.key ++ [x])) []
    Reduce := [([110], List.length)]
    Getters := [([107], DemoItem.key)]
    runTypeAheadQuery := fun _ _ _ => [] }

/-! # Properties -/

/-! ## String comparison -/

theorem u8_lt_iff (a b : UInt8) : a < b ↔ a.toNat < b.toNat := by
  rw [UInt8.lt_def, BitVec.lt_def]; rfl

theorem u8_le_iff (a b : UInt8) : a ≤ b ↔ a.toNat ≤ b.toNat := by
  rw [UInt8.le_def, BitVec.le_def]; rfl

theorem strLess_asymm (a b : Str) (h : strLess a b = true) : strLess b a = false := by
  induction a generalizing b with
  | nil =>
    cases b with
    | nil => simp [strLess] at h
    | cons y ys => simp [strLess]
  | cons x xs ih =>
    cases b with
    | nil => simp [strLess] at h
    | cons y ys =>
      simp only [strLess] at h ⊢
      by_cases h1 : x < y
      · have h2 : ¬ y < x := by rw [u8_lt_iff] at h1 ⊢; omega
        simp [h1, h2]
      · by_cases h2 : y < x
        · simp [h1, h2] at h
        · simp only [h1, h2, if_false] at h ⊢
          exact ih ys h

theorem strLess_negtrans (a b c : Str) (h1 : strLess a b = false) (h2 : strLess b c = false) :
    strLess a c = false := by
  induction a generalizing b c with
  | nil =>
    cases b with
    | nil => exact h2
    | cons y ys => simp [strLess] at h1
  | cons x xs ih =>
    cases c with
    | nil => simp [strLess]
    | cons z zs =>
      cases b with
      | nil => simp [strLess] at h2
      | cons y ys =>
        simp only [strLess] at h1 h2 ⊢
        by_cases hxy : x < y
        · simp [hxy] at h1
        · by_cases hyz : y < z
          · simp [hyz] at h2
          · by_cases hyx : y < x
            · have hxz : ¬ x < z := by rw [u8_lt_iff] at *; omega
              have hzx : z < x := by rw [u8_lt_iff] at *; omega
              simp [hxz, hzx]
            · have hxy' : x = y := by
                apply UInt8.toNat.inj; rw [u8_lt_iff] at *; omega
              subst hxy'
              by_cases hzy : z < x
              · simp [hyz, hzy]
              · simp only [hxy, hyz, hzy, if_false] at h1 h2 ⊢
                exact ih ys zs h1 h2

theorem asciiLower_zeroFree (v : Str) (h : (0 : UInt8) ∉ v) : (0 : UInt8) ∉ asciiLower v := by
  intro hmem
  obtain ⟨b, hb, hb0⟩ := List.mem_map.1 hmem
  by_cases hc : 65 ≤ b ∧ b ≤ 90
  · rw [if_pos hc] at hb0
    have h3 : (b + 32).toNat = 0 := by rw [hb0]; rfl
    have h4 : (b + 32).toNat = (b.toNat + 32) % 256 := by
      rw [UInt8.add_def]; simp [UInt8.toNat, BitVec.toNat_add]
    have e1 : (65 : UInt8).toNat = 65 := rfl
    have e2 : (90 : UInt8).toNat = 90 := rfl
    obtain ⟨c1, c2⟩ := hc
    rw [u8_le_iff] at c1 c2
    omega
  · rw [if_neg hc] at hb0
    exact h (hb0 ▸ hb)

/-! ## `getStringFromIndex` on the index blob -/

theorem scanEnd_zeroFree (k rest : Str) (i : Nat) (hk : (0 : UInt8) ∉ k) :
    scanEnd (k ++ 0 :: rest) i = i + k.length := by
  induction k generalizing i with
  | nil => simp [scanEnd]
  | cons b k ih =>
    have hb : b ≠ 0 := fun h => hk (by simp [h])
    have hk2 : (0 : UInt8) ∉ k := fun h => hk (by simp [h])
    simp [scanEnd, hb, ih (i + 1) hk2]; omega

theorem scanStart_token (pre k rest : Str) (hk : (0 : UInt8) ∉ k) (r : Nat) (hr : r < k.length) :
    scanStart (pre ++ 0 :: (k ++ rest)) (pre.length + 1 + r) = some (pre.length + 1) := by
  induction r with
  | zero =>
    have hget : (pre ++ 0 :: (k ++ rest))[pre.length]? = some 0 := by
      rw [List.getElem?_append_right (le_refl _)]; simp
    show scanStart _ (pre.length + 1) = _
    rw [scanStart, hget]
    simp
  | succ r ih =>
    have hr2 : r < k.length := by omega
    have hget : (pre ++ 0 :: (k ++ rest))[pre.length + 1 + r]? = some (k.get ⟨r, hr2⟩) := by
      rw [List.getElem?_append_right (by omega)]
      have : pre.length + 1 + r - pre.length = r + 1 := by omega
      rw [this]
      simp [List.getElem?_append_left hr2]
    have hne : k.get ⟨r, hr2⟩ ≠ 0 := fun h => hk (h ▸ List.get_mem k r hr2)
    show scanStart _ ((pre.length + 1 + r) + 1) = _
    rw [scanStart, hget]
    simp only [hne, if_false]
    exact ih hr2

theorem getStringFromIndex_between (pre k rest : Str) (hk : (0 : UInt8) ∉ k) (r : Nat)
    (hr : r < k.length) :
    getStringFromIndex (pre ++ 0 :: (k ++ 0 :: rest)) (pre.length + 1 + r) = some k := by
  have hs := scanStart_token pre k (0 :: rest) hk r hr
  have hdrop : (pre ++ 0 :: (k ++ 0 :: rest)).drop (pre.length + 1 + r + 1)
      = k.drop (r + 1) ++ 0 :: rest := by
    have h1 : pre.length + 1 + r + 1 = pre.length + ((r + 1) + 1) := by omega
    rw [h1, List.drop_append, List.drop_succ_cons, List.drop_append_of_le_length (by omega)]
  have hk2 : (0 : UInt8) ∉ k.drop (r + 1) := fun h => hk (List.mem_of_mem_drop h)
  have he := scanEnd_zeroFree (k.drop (r + 1)) rest (pre.length + 1 + r + 1) hk2
  have hlen : (k.drop (r + 1)).length = k.length - (r + 1) := by simp
  unfold getStringFromIndex getBounds
  rw [hs]
  simp only [hdrop, he, hlen]
  have e1 : pre.length + 1 + r + 1 + (k.length - (r + 1)) = pre.length + 1 + k.length := by omega
  rw [e1]
  have hc : pre.length + 1 ≤ pre.length + 1 + k.length ∧
      pre.length + 1 + k.length ≤ (pre ++ 0 :: (k ++ 0 :: rest)).length := by
    simp; omega
  rw [if_pos hc]
  have e2 : pre.length + 1 + k.length - (pre.length + 1) = k.length := by omega
  rw [e2]
  have e3 : (pre ++ 0 :: (k ++ 0 :: rest)).drop (pre.length + 1) = k ++ 0 :: rest := by
    rw [List.drop_append, List.drop_succ_cons, List.drop_zero]
  rw [e3]
  simp


theorem join_cons_cons (k k2 : Str) (ks : List Str) (sep : Str) :
    join (k :: k2 :: ks) sep = k ++ sep ++ join (k2 :: ks) sep := by
  simp [join, List.intercalate, List.intersperse]

theorem zero_cons_join (k : Str) (ks : List Str) :
    0 :: join (k :: ks) [0] = heads (k :: ks) := by
  induction ks generalizing k with
  | nil => simp [join, List.intercalate, heads]
  | cons k2 ks ih =>
    rw [join_cons_cons]
    have := ih k2
    simp only [heads, List.flatMap_cons] at this ⊢
    simp [this]

theorem indexBlob_eq_heads (keys : List Str) (h : keys ≠ []) :
    indexBlob keys = heads keys ++ [0] := by
  cases keys with
  | nil => exact absurd rfl h
  | cons k ks =>
    unfold indexBlob
    rw [← zero_cons_join]; simp

theorem heads_length (keys : List Str) :
    (heads keys).length = (keys.map (fun k => k.length + 1)).sum := by
  induction keys with
  | nil => rfl
  | cons k ks ih => simp [heads, List.flatMap_cons] at ih ⊢; omega

theorem heads_append_zero (keys : List Str) : ∃ rest, heads keys ++ [0] = 0 :: rest := by
  cases keys with
  | nil => exact ⟨[], rfl⟩
  | cons k ks => exact ⟨k ++ heads ks ++ [0], by simp [heads, List.flatMap_cons]⟩

theorem indexBlob_split (ks1 : List Str) (k : Str) (ks2 : List Str) :
    ∃ rest, indexBlob (ks1 ++ k :: ks2) = heads ks1 ++ 0 :: (k ++ 0 :: rest) := by
  obtain ⟨rest, hrest⟩ := heads_append_zero ks2
  refine ⟨rest, ?_⟩
  rw [indexBlob_eq_heads _ (by simp)]
  have : heads (ks1 ++ k :: ks2) = heads ks1 ++ 0 :: (k ++ heads ks2) := by
    simp [heads, List.flatMap_append, List.flatMap_cons]
  rw [this, List.append_assoc, List.cons_append, List.append_assoc, hrest]

theorem heads_eq_tokens (keys : List Str) : heads keys ++ [0] = 0 :: tokens keys := by
  induction keys with
  | nil => rfl
  | cons k ks ih =>
    have h1 : heads (k :: ks) = 0 :: k ++ heads ks := by simp [heads, List.flatMap_cons]
    have h2 : tokens (k :: ks) = k ++ 0 :: tokens ks := by simp [tokens, List.flatMap_cons]
    rw [h1, h2, List.append_assoc, ih]
    simp

theorem indexBlob_nil : indexBlob [] = [0, 0] := rfl

theorem indexBlob_eq_tokens (keys : List Str) (h : keys ≠ []) :
    indexBlob keys = 0 :: tokens keys := by
  rw [indexBlob_eq_heads keys h, heads_eq_tokens]

theorem indexBlob_shape (keys : List Str) :
    ∃ mid, indexBlob keys = 0 :: (mid ++ [0]) := by
  refine ⟨join keys [0], ?_⟩
  simp [indexBlob]

theorem scanStart_le (data : Str) (i : Nat) (hi : i ≤ data.length) :
    ∃ s, scanStart data i = some s ∧ s ≤ i := by
  induction i with
  | zero => exact ⟨0, rfl, le_refl 0⟩
  | succ i ih =>
    have hlt : i < data.length := hi
    rw [scanStart, List.getElem?_eq_getElem hlt]
    by_cases hb : data[i] = 0
    · exact ⟨i + 1, by simp [hb], le_refl _⟩
    · obtain ⟨s, hs, hle⟩ := ih (by omega)
      exact ⟨s, by simp [hb, hs], by omega⟩

theorem scanStart_pos (data : Str) (h0 : data[0]? = some 0) (i : Nat) (hi : i < data.length) :
    ∃ s, scanStart data (i + 1) = some s ∧ 1 ≤ s := by
  induction i with
  | zero =>
    refine ⟨1, ?_, le_refl 1⟩
    rw [scanStart, h0]; simp
  | succ i ih =>
    rw [scanStart, List.getElem?_eq_getElem hi]
    by_cases hb : data[i + 1] = 0
    · exact ⟨i + 1 + 1, by simp [hb], by omega⟩
    · obtain ⟨s, hs, hle⟩ := ih (by omega)
      exact ⟨s, by simp [hb, hs], hle⟩

theorem scanEnd_mem (l : Str) (i : Nat) (h : (0 : UInt8) ∈ l) :
    i ≤ scanEnd l i ∧ scanEnd l i < i + l.length := by
  induction l generalizing i with
  | nil => simp at h
  | cons b rest ih =>
    by_cases hb : b = 0
    · simp [scanEnd, hb]
    · have hrest : (0 : UInt8) ∈ rest := by
        rcases List.mem_cons.1 h with h | h
        · exact absurd h.symm hb
        · exact h
      obtain ⟨h1, h2⟩ := ih (i + 1) hrest
      simp only [scanEnd, hb, if_false, List.length_cons]
      omega

/-- Away from its last byte the blob is safe: at every offset before the final separator the
bounds computed by `getStringFromIndex` satisfy `start ≤ end ≤ len(blob)` and a string is
returned. -/
theorem getStringFromIndex_defined (keys : List Str) (i : Nat)
    (hi : i + 1 < (indexBlob keys).length) :
    ∃ start stop, getBounds (indexBlob keys) i = some (start, stop) ∧ start ≤ stop ∧
      stop ≤ (indexBlob keys).length ∧ (getStringFromIndex (indexBlob keys) i).isSome = true := by
  obtain ⟨mid, hmid⟩ := indexBlob_shape keys
  obtain ⟨s, hs, hsi⟩ := scanStart_le (indexBlob keys) i (by omega)
  have hz : (0 : UInt8) ∈ (indexBlob keys).drop (i + 1) := by
    have hlen : (indexBlob keys).length = mid.length + 2 := by rw [hmid]; simp
    have hd : (indexBlob keys).drop (i + 1) = mid.drop i ++ [0] := by
      rw [hmid, List.drop_succ_cons, List.drop_append_of_le_length (by omega)]
    rw [hd]; simp
  obtain ⟨e1, e2⟩ := scanEnd_mem _ (i + 1) hz
  have hl : ((indexBlob keys).drop (i + 1)).length = (indexBlob keys).length - (i + 1) := by
    simp
  refine ⟨s, scanEnd ((indexBlob keys).drop (i + 1)) (i + 1), ?_, by omega, by omega, ?_⟩
  · simp [getBounds, hs]
  · have hc : s ≤ scanEnd ((indexBlob keys).drop (i + 1)) (i + 1) ∧
        scanEnd ((indexBlob keys).drop (i + 1)) (i + 1) ≤ (indexBlob keys).length := by
      constructor <;> omega
    simp only [getStringFromIndex, getBounds, hs]
    rw [if_pos hc]; rfl


/-! ## Maps and the double loop of `makeIndex` -/

theorem mapGet_mapSet {V : Type} (m : GoMap V) (k : Str) (v : V) (k2 : Str) :
    mapGet (mapSet m k v) k2 = if k = k2 then some v else mapGet m k2 := by
  induction m with
  | nil => simp [mapSet, mapGet]
  | cons e m ih =>
    obtain ⟨k', v'⟩ := e
    by_cases h : k' = k
    · subst h
      by_cases h2 : k' = k2 <;> simp [mapSet, mapGet, h2]
    · by_cases h2 : k' = k2
      · subst h2
        have : ¬ k = k' := fun e => h e.symm
        simp [mapSet, mapGet, h, this]
      · simp [mapSet, mapGet, h, h2, ih]

theorem mem_mapKeys_mapSet {V : Type} (m : GoMap V) (k : Str) (v : V) (k2 : Str) :
    k2 ∈ mapKeys (mapSet m k v) ↔ k2 = k ∨ k2 ∈ mapKeys m := by
  induction m with
  | nil => simp [mapSet, mapKeys]
  | cons e m ih =>
    obtain ⟨k', v'⟩ := e
    by_cases h : k' = k
    · subst h
      simp [mapSet, mapKeys]
    · simp only [mapKeys] at ih
      simp [mapSet, mapKeys, h, ih]
      tauto

theorem nodup_mapKeys_mapSet {V : Type} (m : GoMap V) (k : Str) (v : V)
    (h : (mapKeys m).Nodup) : (mapKeys (mapSet m k v)).Nodup := by
  induction m with
  | nil => simp [mapSet, mapKeys]
  | cons e m ih =>
    obtain ⟨k', v'⟩ := e
    have h' : k' ∉ mapKeys m ∧ (mapKeys m).Nodup := by simpa [mapKeys] using h
    by_cases hk : k' = k
    · subst hk
      simpa [mapSet, mapKeys] using h
    · have hmem := mem_mapKeys_mapSet m k v k'
      have : k' ∉ mapKeys (mapSet m k v) := by
        rw [hmem]; push_neg; exact ⟨hk, h'.1⟩
      have ih' := ih h'.2
      simp only [mapKeys] at this ih'
      simp [mapSet, mapKeys, hk, this, ih']

theorem mem_mapKeys_iff {V : Type} (m : GoMap V) (k : Str) :
    k ∈ mapKeys m ↔ (mapGet m k).isSome = true := by
  induction m with
  | nil => simp [mapKeys, mapGet]
  | cons e m ih =>
    obtain ⟨k', v'⟩ := e
    simp only [mapKeys] at ih
    by_cases h : k' = k
    · simp [mapKeys, mapGet, h]
    · have : ¬ k = k' := fun e => h e.symm
      simp [mapKeys, mapGet, h, this, ih]


theorem mapIndex_mapSet {α : Type} (m : GoMap (List α)) (k : Str) (l : List α) (k2 : Str) :
    mapIndex (mapSet m k l) k2 = if k = k2 then l else mapIndex m k2 := by
  unfold mapIndex
  rw [mapGet_mapSet]
  split <;> rfl

theorem indexItem_eq_fold {Item : Type} (toLower : Str → Str) (Row : Item → List Str)
    (m : IndexMaps Item) (p : Nat × Item) :
    indexItem toLower Row m p = (itemEntries toLower Row p).foldl indexEntry m := by
  unfold indexItem itemEntries
  rw [List.foldl_map]
  rfl

theorem foldl_indexItem_eq {Item : Type} (toLower : Str → Str) (Row : Item → List Str)
    (ps : List (Nat × Item)) (m : IndexMaps Item) :
    ps.foldl (indexItem toLower Row) m
      = (ps.flatMap (itemEntries toLower Row)).foldl indexEntry m := by
  induction ps generalizing m with
  | nil => rfl
  | cons p ps ih =>
    rw [List.foldl_cons, List.flatMap_cons, List.foldl_append, ih, indexItem_eq_fold]

theorem indexItems_eq {Item : Type} (toLower : Str → Str) (Row : Item → List Str)
    (items : List Item) :
    indexItems toLower Row items
      = (entriesFrom toLower Row 0 items).foldl indexEntry ⟨[], [], []⟩ := by
  unfold indexItems entriesFrom List.enum
  exact foldl_indexItem_eq toLower Row _ _

theorem fold_LOOKUPINDEX {Item : Type} (es : List (Nat × Item × Str)) (m : IndexMaps Item)
    (k : Str) :
    mapIndex (es.foldl indexEntry m).LOOKUPINDEX k
      = mapIndex m.LOOKUPINDEX k ++ (es.filter (fun e => e.2.2 = k)).map (fun e => e.1) := by
  induction es generalizing m with
  | nil => simp
  | cons e es ih =>
    rw [List.foldl_cons, ih]
    simp only [indexEntry, mapIndex_mapSet]
    by_cases h : e.2.2 = k
    · simp [h, List.filter_cons]
    · simp [h, List.filter_cons]

theorem fold_LOOKUP {Item : Type} (es : List (Nat × Item × Str)) (m : IndexMaps Item)
    (k : Str) :
    mapIndex (es.foldl indexEntry m).LOOKUP k
      = mapIndex m.LOOKUP k ++ (es.filter (fun e => e.2.2 = k)).map (fun e => e.2.1) := by
  induction es generalizing m with
  | nil => simp
  | cons e es ih =>
    rw [List.foldl_cons, ih]
    simp only [indexEntry, mapIndex_mapSet]
    by_cases h : e.2.2 = k
    · simp [h, List.filter_cons]
    · simp [h, List.filter_cons]

theorem fold_keys {Item : Type} (es : List (Nat × Item × Str)) (m : IndexMaps Item)
    (k : Str) :
    (k ∈ mapKeys (es.foldl indexEntry m).kSet ↔ k ∈ mapKeys m.kSet ∨ ∃ e ∈ es, e.2.2 = k) ∧
    (k ∈ mapKeys (es.foldl indexEntry m).LOOKUP ↔ k ∈ mapKeys m.LOOKUP ∨ ∃ e ∈ es, e.2.2 = k) ∧
    (k ∈ mapKeys (es.foldl indexEntry m).LOOKUPINDEX
      ↔ k ∈ mapKeys m.LOOKUPINDEX ∨ ∃ e ∈ es, e.2.2 = k) := by
  induction es generalizing m with
  | nil => simp
  | cons e es ih =>
    rw [List.foldl_cons]
    obtain ⟨h1, h2, h3⟩ := ih (indexEntry m e)
    rw [h1, h2, h3]
    simp only [indexEntry, mem_mapKeys_mapSet, List.mem_cons, exists_eq_or_imp]
    have key : ∀ P Q : Prop, ((k = e.2.2 ∨ P) ∨ Q) ↔ (P ∨ (e.2.2 = k ∨ Q)) := by
      intro P Q
      rw [eq_comm]
      tauto
    exact ⟨key _ _, key _ _, key _ _⟩

theorem fold_kSet_nodup {Item : Type} (es : List (Nat × Item × Str)) (m : IndexMaps Item)
    (h : (mapKeys m.kSet).Nodup) : (mapKeys (es.foldl indexEntry m).kSet).Nodup := by
  induction es generalizing m with
  | nil => simpa using h
  | cons e es ih =>
    rw [List.foldl_cons]
    exact ih _ (nodup_mapKeys_mapSet _ _ _ h)


theorem entriesFrom_cons {Item : Type} (toLower : Str → Str) (Row : Item → List Str)
    (n : Nat) (x : Item) (xs : List Item) :
    entriesFrom toLower Row n (x :: xs)
      = (Row x).map (fun v => (n, x, toLower v)) ++ entriesFrom toLower Row (n + 1) xs := by
  simp [entriesFrom, List.enumFrom, itemEntries]

theorem entriesFrom_index {Item : Type} (toLower : Str → Str) (Row : Item → List Str)
    (n : Nat) (items : List Item) :
    ∀ e ∈ entriesFrom toLower Row n items, n ≤ e.1 ∧ items[e.1 - n]? = some e.2.1 := by
  induction items generalizing n with
  | nil => simp [entriesFrom]
  | cons x xs ih =>
    intro e he
    rw [entriesFrom_cons, List.mem_append] at he
    rcases he with he | he
    · obtain ⟨v, _, rfl⟩ := List.mem_map.1 he
      simp
    · obtain ⟨h1, h2⟩ := ih (n + 1) e he
      refine ⟨by omega, ?_⟩
      have : e.1 - n = (e.1 - (n + 1)) + 1 := by omega
      rw [this, List.getElem?_cons_succ]
      exact h2

theorem entriesFrom_value {Item : Type} (toLower : Str → Str) (Row : Item → List Str)
    (n : Nat) (items : List Item) (k : Str) :
    (∃ e ∈ entriesFrom toLower Row n items, e.2.2 = k)
      ↔ ∃ item ∈ items, ∃ c ∈ Row item, toLower c = k := by
  induction items generalizing n with
  | nil => simp [entriesFrom]
  | cons x xs ih =>
    constructor
    · rintro ⟨e, he, hk⟩
      rw [entriesFrom_cons, List.mem_append] at he
      rcases he with he | he
      · obtain ⟨v, hv, rfl⟩ := List.mem_map.1 he
        exact ⟨x, List.mem_cons_self _ _, v, hv, hk⟩
      · obtain ⟨item, hi, c, hc, h⟩ := (ih (n + 1)).1 ⟨e, he, hk⟩
        exact ⟨item, List.mem_cons_of_mem _ hi, c, hc, h⟩
    · rintro ⟨item, hi, c, hc, h⟩
      rcases List.mem_cons.1 hi with rfl | hi
      · refine ⟨(n, item, toLower c), ?_, h⟩
        rw [entriesFrom_cons]
        exact List.mem_append_left _ (List.mem_map.2 ⟨c, hc, rfl⟩)
      · obtain ⟨e, he, hk⟩ := (ih (n + 1)).2 ⟨item, hi, c, hc, h⟩
        refine ⟨e, ?_, hk⟩
        rw [entriesFrom_cons]
        exact List.mem_append_right _ he

theorem entriesFrom_sorted {Item : Type} (toLower : Str → Str) (Row : Item → List Str)
    (n : Nat) (items : List Item) :
    ((entriesFrom toLower Row n items).map (fun e => e.1)).Pairwise (fun a b => a ≤ b) := by
  induction items generalizing n with
  | nil => simp [entriesFrom]
  | cons x xs ih =>
    rw [entriesFrom_cons, List.map_append, List.pairwise_append]
    refine ⟨?_, ih (n + 1), ?_⟩
    · rw [List.map_map, List.pairwise_map]
      exact List.pairwise_of_forall (fun _ _ => le_refl n)
    · intro a ha b hb
      obtain ⟨e, he, rfl⟩ := List.mem_map.1 hb
      have := (entriesFrom_index toLower Row (n + 1) xs e he).1
      simp only [List.map_map, List.mem_map, Function.comp] at ha
      obtain ⟨_, _, rfl⟩ := ha
      omega

theorem entriesFrom_count {Item : Type} (toLower : Str → Str) (Row : Item → List Str)
    (n : Nat) (items : List Item) (k : Str) (p : Nat) (hp : n ≤ p) :
    (((entriesFrom toLower Row n items).filter (fun e => e.2.2 = k)).map (fun e => e.1)).count p
      = ((items[p - n]?).map (fun item => ((Row item).map toLower).count k)).getD 0 := by
  induction items generalizing n with
  | nil => simp [entriesFrom]
  | cons x xs ih =>
    rw [entriesFrom_cons, List.filter_append, List.map_append, List.count_append]
    by_cases hpn : p = n
    · subst hpn
      have h2 : (((entriesFrom toLower Row (p + 1) xs).filter (fun e => e.2.2 = k)).map
          (fun e => e.1)).count p = 0 := by
        rw [List.count_eq_zero]
        intro hmem
        obtain ⟨e, he, heq⟩ := List.mem_map.1 hmem
        have := (entriesFrom_index toLower Row (p + 1) xs e (List.mem_of_mem_filter he)).1
        omega
      rw [h2]
      simp only [Nat.sub_self, List.getElem?_cons_zero, Option.map_some', Option.getD_some,
        Nat.add_zero]
      generalize Row x = row
      induction row with
      | nil => simp
      | cons c cs ihc =>
        by_cases hc : toLower c = k
        · simp [List.filter_cons, hc, ihc]
        · simp [List.filter_cons, hc, ihc, List.count_cons]
    · have h1 : ((((Row x).map (fun v => (n, x, toLower v))).filter (fun e => e.2.2 = k)).map
          (fun e => e.1)).count p = 0 := by
        rw [List.count_eq_zero]
        intro hmem
        obtain ⟨e, he, heq⟩ := List.mem_map.1 hmem
        obtain ⟨v, _, rfl⟩ := List.mem_map.1 (List.mem_of_mem_filter he)
        exact hpn heq.symm
      rw [h1, ih (n + 1) (by omega)]
      have : p - n = (p - (n + 1)) + 1 := by omega
      rw [this, List.getElem?_cons_succ]
      simp



/-! ## Occurrences of a string in the blob -/

theorem occursAt_iff (data s : Str) : (∃ o, occursAt data s o) ↔ s <:+: data := by
  constructor
  · rintro ⟨o, ho⟩
    refine ⟨data.take o, (data.drop o).drop s.length, ?_⟩
    unfold occursAt at ho
    calc data.take o ++ s ++ (data.drop o).drop s.length
        = data.take o ++ ((data.drop o).take s.length ++ (data.drop o).drop s.length) := by
          rw [ho, List.append_assoc]
      _ = data := by rw [List.take_append_drop, List.take_append_drop]
  · rintro ⟨p, q, rfl⟩
    refine ⟨p.length, ?_⟩
    unfold occursAt
    rw [List.append_assoc, List.drop_left, List.take_left]

theorem infix_zero_split (s A B : Str) (hs : (0 : UInt8) ∉ s) :
    s <:+: A ++ 0 :: B ↔ s <:+: A ∨ s <:+: B := by
  constructor
  · rintro ⟨p, q, h⟩
    rcases List.append_eq_append_iff.1 h with ⟨a', hA, _⟩ | ⟨c', hps, hB⟩
    · exact Or.inl ⟨p, a', hA.symm⟩
    · cases c' with
      | nil =>
        rw [List.append_nil] at hps
        exact Or.inl ⟨p, [], by rw [List.append_nil]; exact hps⟩
      | cons z c'' =>
        rw [List.cons_append] at hB
        obtain ⟨hz, hB'⟩ := List.cons.inj hB
        subst hz
        rcases List.append_eq_append_iff.1 hps with ⟨a', _, hs'⟩ | ⟨c3, hp, hc3⟩
        · exact absurd (by rw [hs']; simp) hs
        · cases c3 with
          | nil =>
            rw [List.nil_append] at hc3
            exact absurd (by rw [← hc3]; simp) hs
          | cons z2 c4 =>
            rw [List.cons_append] at hc3
            obtain ⟨_, hc4⟩ := List.cons.inj hc3
            right
            refine ⟨c4, q, ?_⟩
            rw [hB', hc4]
  · rintro (⟨p, q, h⟩ | ⟨p, q, h⟩)
    · exact ⟨p, q ++ 0 :: B, by rw [← h]; simp⟩
    · exact ⟨A ++ 0 :: p, q, by rw [← h]; simp⟩

theorem infix_nil_iff (s : Str) (hne : s ≠ []) : ¬ s <:+: ([] : Str) := by
  intro h
  exact hne (List.infix_nil.1 h)

theorem infix_tokens (s : Str) (keys : List Str) (hs : (0 : UInt8) ∉ s) (hne : s ≠ []) :
    s <:+: tokens keys ↔ ∃ k ∈ keys, s <:+: k := by
  induction keys with
  | nil =>
    constructor
    · intro h; exact absurd h (infix_nil_iff s hne)
    · rintro ⟨k, hk, _⟩; simp at hk
  | cons k ks ih =>
    have h2 : tokens (k :: ks) = k ++ 0 :: tokens ks := by simp [tokens, List.flatMap_cons]
    rw [h2, infix_zero_split s _ _ hs, ih]
    simp

theorem infix_indexBlob (s : Str) (keys : List Str) (hs : (0 : UInt8) ∉ s) (hne : s ≠ []) :
    s <:+: indexBlob keys ↔ ∃ k ∈ keys, s <:+: k := by
  by_cases hk : keys = []
  · subst hk
    rw [indexBlob_nil]
    have e : ([0, 0] : Str) = [] ++ 0 :: [0] := rfl
    have e2 : ([0] : Str) = [] ++ 0 :: [] := rfl
    rw [e, infix_zero_split s _ _ hs, e2, infix_zero_split s _ _ hs]
    simp [infix_nil_iff s hne]
  · rw [indexBlob_eq_tokens keys hk]
    have e : (0 :: tokens keys) = [] ++ 0 :: tokens keys := rfl
    rw [e, infix_zero_split s _ _ hs, infix_tokens s keys hs hne]
    simp [infix_nil_iff s hne]

theorem mem_entriesFrom {Item : Type} (toLower : Str → Str) (Row : Item → List Str)
    (n : Nat) (items : List Item) (item : Item) (hi : item ∈ items) (v : Str)
    (hv : v ∈ Row item) : ∃ i, (i, item, toLower v) ∈ entriesFrom toLower Row n items := by
  induction items generalizing n with
  | nil => simp at hi
  | cons x xs ih =>
    rcases List.mem_cons.1 hi with rfl | hi
    · refine ⟨n, ?_⟩
      rw [entriesFrom_cons]
      exact List.mem_append_left _ (List.mem_map.2 ⟨v, hv, rfl⟩)
    · obtain ⟨i, h⟩ := ih (n + 1) hi
      refine ⟨i, ?_⟩
      rw [entriesFrom_cons]
      exact List.mem_append_right _ h

/-! ## The state written by `makeIndex` -/

theorem makeIndex_LOOKUP {Item : Type} (d : Deps Item) (ITEMS : List Item) (k : Str) :
    mapIndex (makeIndex d ITEMS).LOOKUP k
      = ((entriesFrom d.toLower d.Row 0 (makeIndex d ITEMS).ITEMS).filter
          (fun e => e.2.2 = k)).map (fun e => e.2.1) := by
  show mapIndex (indexItems d.toLower d.Row _).LOOKUP k = _
  rw [indexItems_eq, fold_LOOKUP]
  rfl

theorem makeIndex_LOOKUPINDEX {Item : Type} (d : Deps Item) (ITEMS : List Item) (k : Str) :
    mapIndex (makeIndex d ITEMS).LOOKUPINDEX k
      = ((entriesFrom d.toLower d.Row 0 (makeIndex d ITEMS).ITEMS).filter
          (fun e => e.2.2 = k)).map (fun e => e.1) := by
  show mapIndex (indexItems d.toLower d.Row _).LOOKUPINDEX k = _
  rw [indexItems_eq, fold_LOOKUPINDEX]
  rfl

theorem makeIndex_keys {Item : Type} (d : Deps Item) (ITEMS : List Item) (k : Str) :
    (k ∈ mapKeys (indexItems d.toLower d.Row (makeIndex d ITEMS).ITEMS).kSet
      ↔ ∃ item ∈ (makeIndex d ITEMS).ITEMS, ∃ c ∈ d.Row item, d.toLower c = k) ∧
    (k ∈ mapKeys (makeIndex d ITEMS).LOOKUP
      ↔ ∃ item ∈ (makeIndex d ITEMS).ITEMS, ∃ c ∈ d.Row item, d.toLower c = k) ∧
    (k ∈ mapKeys (makeIndex d ITEMS).LOOKUPINDEX
      ↔ ∃ item ∈ (makeIndex d ITEMS).ITEMS, ∃ c ∈ d.Row item, d.toLower c = k) := by
  have hv := entriesFrom_value d.toLower d.Row 0 (makeIndex d ITEMS).ITEMS k
  have hk := fold_keys (entriesFrom d.toLower d.Row 0 (makeIndex d ITEMS).ITEMS)
    (⟨[], [], []⟩ : IndexMaps Item) k
  rw [← indexItems_eq] at hk
  obtain ⟨h1, h2, h3⟩ := hk
  simp only [mapKeys, List.map_nil, List.not_mem_nil, false_or] at h1 h2 h3
  refine ⟨?_, ?_, ?_⟩
  · exact h1.trans hv
  · exact h2.trans hv
  · exact h3.trans hv

theorem mem_STR_INDEX_keys {Item : Type} (d : Deps Item) (hrange : RangeSpec d)
    (ITEMS : List Item) (k : Str) :
    k ∈ d.rangeKeys (mapKeys (indexItems d.toLower d.Row (makeIndex d ITEMS).ITEMS).kSet)
      ↔ ∃ item ∈ (makeIndex d ITEMS).ITEMS, ∃ c ∈ d.Row item, d.toLower c = k := by
  rw [(hrange _).mem_iff]
  exact (makeIndex_keys d ITEMS k).1

theorem makeIndex_STR_INDEX {Item : Type} (d : Deps Item) (ITEMS : List Item) :
    (makeIndex d ITEMS).STR_INDEX = indexBlob
      (d.rangeKeys (mapKeys (indexItems d.toLower d.Row (makeIndex d ITEMS).ITEMS).kSet)) :=
  rfl

/-- The keys joined into `STR_INDEX` are pairwise distinct: `kSet` deduplicates them. -/
theorem makeIndex_kSet_nodup {Item : Type} (d : Deps Item) (hrange : RangeSpec d)
    (ITEMS : List Item) :
    (d.rangeKeys (mapKeys (indexItems d.toLower d.Row (makeIndex d ITEMS).ITEMS).kSet)).Nodup := by
  rw [(hrange _).nodup_iff, indexItems_eq]
  exact fold_kSet_nodup _ _ (by simp [mapKeys])

/-! ## The legacy `sort.Slice` meets the contract of `sort.Slice` -/

theorem swapAt_perm {α : Type} [DecidableEq α] (l : List α) (i j : Nat) :
    (swapAt l i j).Perm l := by
  unfold swapAt
  cases hi : l[i]? with
  | none => exact List.Perm.refl l
  | some x =>
    cases hj : l[j]? with
    | none => exact List.Perm.refl l
    | some y =>
      obtain ⟨hil, hix⟩ := List.getElem?_eq_some_iff.1 hi
      obtain ⟨hjl, hjy⟩ := List.getElem?_eq_some_iff.1 hj
      show ((l.set i y).set j x).Perm l
      rw [List.perm_iff_count]
      intro a
      have hjl' : j < (l.set i y).length := by simpa using hjl
      rw [List.count_set _ _ _ _ hjl', List.count_set _ _ _ _ hil, List.getElem_set, hix]
      have hx : x = a → 0 < l.count a := fun h =>
        List.count_pos_iff.2 (h ▸ hix ▸ List.getElem_mem hil)
      have hy : y = a → 0 < l.count a := fun h =>
        List.count_pos_iff.2 (h ▸ hjy ▸ List.getElem_mem hjl)
      by_cases hij : i = j
      · subst hij
        have hxy : x = y := by rw [← hix, ← hjy]
        subst hxy
        by_cases hxa : x = a
        · have := hx hxa
          simp [hxa]; omega
        · simp [hxa]
      · simp only [hij, if_false, hjy, beq_iff_eq]
        by_cases hxa : x = a <;> by_cases hya : y = a
        · have := hx hxa
          simp [hxa, hya]; omega
        · have := hx hxa
          simp [hxa, hya]; omega
        · simp [hxa, hya]
        · simp [hxa, hya]

theorem gapStep_perm {α : Type} [DecidableEq α] (less : α → α → Bool) (l : List α) (i : Nat) :
    (gapStep less l i).Perm l := by
  unfold gapStep
  split
  · split
    · exact swapAt_perm l i (i - 6)
    · exact List.Perm.refl l
  · exact List.Perm.refl l

theorem foldl_gapStep_perm {α : Type} [DecidableEq α] (less : α → α → Bool) (is : List Nat)
    (l : List α) : (is.foldl (gapStep less) l).Perm l := by
  induction is generalizing l with
  | nil => exact List.Perm.refl l
  | cons i is ih => exact (ih _).trans (gapStep_perm less l i)

theorem shellPass_perm {α : Type} [DecidableEq α] (less : α → α → Bool) (l : List α) :
    (shellPass less l).Perm l :=
  foldl_gapStep_perm less _ l

theorem insertSorted_perm {α : Type} (less : α → α → Bool) (x : α) (l : List α) :
    (insertSorted less x l).Perm (x :: l) := by
  induction l with
  | nil => exact List.Perm.refl _
  | cons y ys ih =>
    unfold insertSorted
    split
    · exact List.Perm.refl _
    · exact ((List.Perm.cons y ih).trans (List.Perm.swap x y ys))

theorem insertSorted_sorted {α : Type} (less : α → α → Bool)
    (hasymm : ∀ a b, less a b = true → less b a = false)
    (hneg : ∀ a b c, less a b = false → less b c = false → less a c = false)
    (x : α) (l : List α) (hl : l.Pairwise (fun a b => less b a = false)) :
    (insertSorted less x l).Pairwise (fun a b => less b a = false) := by
  induction l with
  | nil => simp [insertSorted]
  | cons y ys ih =>
    obtain ⟨hy, hys⟩ := List.pairwise_cons.1 hl
    unfold insertSorted
    by_cases hxy : less x y = true
    · rw [if_pos hxy]
      refine List.pairwise_cons.2 ⟨?_, hl⟩
      intro b hb
      rcases List.mem_cons.1 hb with rfl | hb
      · exact hasymm _ _ hxy
      · exact hneg b y x (hy b hb) (hasymm _ _ hxy)
    · rw [if_neg hxy]
      refine List.pairwise_cons.2 ⟨?_, ih hys⟩
      intro b hb
      rcases List.mem_cons.1 ((insertSorted_perm less x ys).mem_iff.1 hb) with rfl | hb
      · simpa using hxy
      · exact hy b hb

theorem foldl_insertSorted {α : Type} (less : α → α → Bool)
    (hasymm : ∀ a b, less a b = true → less b a = false)
    (hneg : ∀ a b c, less a b = false → less b c = false → less a c = false)
    (l acc : List α) (hacc : acc.Pairwise (fun a b => less b a = false)) :
    (l.foldl (fun sorted x => insertSorted less x sorted) acc).Perm (l ++ acc) ∧
    (l.foldl (fun sorted x => insertSorted less x sorted) acc).Pairwise
      (fun a b => less b a = false) := by
  induction l generalizing acc with
  | nil => exact ⟨List.Perm.refl _, hacc⟩
  | cons x xs ih =>
    obtain ⟨h1, h2⟩ := ih (insertSorted less x acc) (insertSorted_sorted less hasymm hneg x acc hacc)
    refine ⟨?_, h2⟩
    refine h1.trans ?_
    refine (List.Perm.append_left xs (insertSorted_perm less x acc)).trans ?_
    exact List.perm_middle

theorem indexLess_asymm {Item : Type} (d : Deps Item) (a b : Item)
    (h : indexLess d a b = true) : indexLess d b a = false :=
  strLess_asymm _ _ h

theorem indexLess_negtrans {Item : Type} (d : Deps Item) (a b c : Item)
    (h1 : indexLess d a b = false) (h2 : indexLess d b c = false) : indexLess d a c = false :=
  strLess_negtrans _ _ _ h1 h2

theorem legacySortSlice_spec {Item : Type} [DecidableEq Item] (d : Deps Item)
    (h : d.sortSlice = legacySortSlice) : SortSliceSpec d := by
  intro l
  rw [h]
  obtain ⟨h1, h2⟩ := foldl_insertSorted (indexLess d) (indexLess_asymm d) (indexLess_negtrans d)
    (shellPass (indexLess d) l) [] List.Pairwise.nil
  refine ⟨?_, h2⟩
  refine h1.trans ?_
  rw [List.append_nil]
  exact shellPass_perm _ l

theorem demoDeps_sortSpec : SortSliceSpec demoDeps := legacySortSlice_spec demoDeps rfl

theorem demoDeps_rangeSpec : RangeSpec demoDeps := fun l => List.Perm.refl l

/-! ## `makeIndex`: the lookup maps -/

/-- C4. After `makeIndex`, for every string `v`: `LOOKUP[v]` and `LOOKUPINDEX[v]` have the
same length; the item of the sorted `ITEMS` at position `LOOKUPINDEX[v][j]` is `LOOKUP[v][j]`
for every `j`; `LOOKUPINDEX[v]` is in non-decreasing order; a position `p` occurs in
`LOOKUPINDEX[v]` as many times as `ITEMS[p]` has columns whose lowercased value is `v`; and
`v` is a key of either map exactly when some item has a column whose lowercased value is
`v`. -/
theorem makeIndex_lookup_consistent {Item : Type} (d : Deps Item) (ITEMS : List Item)
    (v : Str) :
    (mapIndex (makeIndex d ITEMS).LOOKUP v).length
      = (mapIndex (makeIndex d ITEMS).LOOKUPINDEX v).length ∧
    (∀ j : Nat, ((mapIndex (makeIndex d ITEMS).LOOKUPINDEX v)[j]?).bind
        (fun p => (makeIndex d ITEMS).ITEMS[p]?) = (mapIndex (makeIndex d ITEMS).LOOKUP v)[j]?) ∧
    (mapIndex (makeIndex d ITEMS).LOOKUPINDEX v).Pairwise (fun a b => a ≤ b) ∧
    (∀ p : Nat, (mapIndex (makeIndex d ITEMS).LOOKUPINDEX v).count p
      = (((makeIndex d ITEMS).ITEMS[p]?).map
          (fun item => ((d.Row item).map d.toLower).count v)).getD 0) ∧
    (v ∈ mapKeys (makeIndex d ITEMS).LOOKUP
      ↔ ∃ item ∈ (makeIndex d ITEMS).ITEMS, ∃ c ∈ d.Row item, d.toLower c = v) ∧
    (v ∈ mapKeys (makeIndex d ITEMS).LOOKUPINDEX
      ↔ ∃ item ∈ (makeIndex d ITEMS).ITEMS, ∃ c ∈ d.Row item, d.toLower c = v) := by
  rw [makeIndex_LOOKUP, makeIndex_LOOKUPINDEX]
  refine ⟨by simp, ?_, ?_, ?_, (makeIndex_keys d ITEMS v).2.1, (makeIndex_keys d ITEMS v).2.2⟩
  · intro j
    rw [List.getElem?_map, List.getElem?_map]
    cases hj : ((entriesFrom d.toLower d.Row 0 (makeIndex d ITEMS).ITEMS).filter
        (fun e => e.2.2 = v))[j]? with
    | none => rfl
    | some e =>
      have hmem := List.mem_of_mem_filter (List.getElem?_mem hj)
      have := (entriesFrom_index d.toLower d.Row 0 _ e hmem).2
      simpa using this
  · have h := entriesFrom_sorted d.toLower d.Row 0 (makeIndex d ITEMS).ITEMS
    exact h.sublist ((List.filter_sublist _).map _)
  · intro p
    exact entriesFrom_count d.toLower d.Row 0 _ v p (Nat.zero_le p)

/-! ## `makeIndex`: the blob and the search index -/

theorem occursAt_between (pre k rest p s q : Str) (hk : p ++ s ++ q = k) :
    occursAt (pre ++ 0 :: (k ++ 0 :: rest)) s (pre.length + 1 + p.length) := by
  unfold occursAt
  subst hk
  have e : pre.length + 1 + p.length = pre.length + (p.length + 1) := by omega
  rw [e, List.drop_append, List.drop_succ_cons]
  have e2 : p ++ s ++ q ++ 0 :: rest = p ++ (s ++ (q ++ 0 :: rest)) := by simp
  rw [e2, List.drop_left, List.take_left]

/-- C3. Index consistency after `makeIndex`, for a dataset whose column values contain no
zero byte (`sort.Slice`, `range` and `strings.ToLower` behaving as documented): a non-empty
zero-free string occurs in `STR_INDEX` exactly when it is a substring of the lowercased value
of some column of some item; and for every item, column value `v` and non-empty substring `s`
of the lowercased `v` there is an offset at which `s` occurs in `STR_INDEX` and from which
`getStringFromIndex` returns a key `k` with the item in `LOOKUP[k]`. -/
theorem makeIndex_index_consistent {Item : Type} (d : Deps Item) (hsort : SortSliceSpec d)
    (hrange : RangeSpec d) (hlow : ∀ v : Str, (0 : UInt8) ∉ v → (0 : UInt8) ∉ d.toLower v)
    (ITEMS : List Item) (hv : ∀ item ∈ ITEMS, ∀ v ∈ d.Row item, (0 : UInt8) ∉ v) :
    (∀ s : Str, s ≠ [] → (0 : UInt8) ∉ s →
      ((∃ o, occursAt (makeIndex d ITEMS).STR_INDEX s o)
        ↔ ∃ item ∈ ITEMS, ∃ v ∈ d.Row item, s <:+: d.toLower v)) ∧
    (∀ item ∈ ITEMS, ∀ v ∈ d.Row item, ∀ s : Str, s ≠ [] → s <:+: d.toLower v →
      ∃ o, occursAt (makeIndex d ITEMS).STR_INDEX s o ∧
        ∃ k, getStringFromIndex (makeIndex d ITEMS).STR_INDEX o = some k ∧
          item ∈ mapIndex (makeIndex d ITEMS).LOOKUP k) := by
  have hperm : ∀ x, x ∈ (makeIndex d ITEMS).ITEMS ↔ x ∈ ITEMS := fun x =>
    (hsort ITEMS).1.mem_iff
  constructor
  · intro s hne hs
    rw [occursAt_iff, makeIndex_STR_INDEX, infix_indexBlob s _ hs hne]
    constructor
    · rintro ⟨k, hk, hsk⟩
      obtain ⟨item, hi, c, hc, rfl⟩ := (mem_STR_INDEX_keys d hrange ITEMS k).1 hk
      exact ⟨item, (hperm item).1 hi, c, hc, hsk⟩
    · rintro ⟨item, hi, c, hc, hsk⟩
      exact ⟨d.toLower c, (mem_STR_INDEX_keys d hrange ITEMS _).2
        ⟨item, (hperm item).2 hi, c, hc, rfl⟩, hsk⟩
  · intro item hi v hvr s hne hsk
    have hk : d.toLower v ∈ d.rangeKeys
        (mapKeys (indexItems d.toLower d.Row (makeIndex d ITEMS).ITEMS).kSet) :=
      (mem_STR_INDEX_keys d hrange ITEMS _).2 ⟨item, (hperm item).2 hi, v, hvr, rfl⟩
    obtain ⟨ks1, ks2, hkeys⟩ := List.append_of_mem hk
    obtain ⟨rest, hblob⟩ := indexBlob_split ks1 (d.toLower v) ks2
    obtain ⟨p, q, hpq⟩ := hsk
    have hr : p.length < (d.toLower v).length := by
      have hs : 0 < s.length := List.length_pos.2 hne
      rw [← hpq]; simp; omega
    refine ⟨(heads ks1).length + 1 + p.length, ?_, d.toLower v, ?_, ?_⟩
    · rw [makeIndex_STR_INDEX, hkeys, hblob]
      exact occursAt_between _ _ _ p s q hpq
    · rw [makeIndex_STR_INDEX, hkeys, hblob]
      exact getStringFromIndex_between _ _ _ (hlow v (hv item hi v hvr)) _ hr
    · rw [makeIndex_LOOKUP]
      obtain ⟨i, hmem⟩ := mem_entriesFrom d.toLower d.Row 0 _ item ((hperm item).2 hi) v hvr
      exact List.mem_map.2 ⟨(i, item, d.toLower v), List.mem_filter.2 ⟨hmem, by simp⟩, rfl⟩

/-- Witness of C3 on the seven demo records. -/
theorem makeIndex_index_consistent_witness :
    (∀ s : Str, s ≠ [] → (0 : UInt8) ∉ s →
      ((∃ o, occursAt (makeIndex demoDeps demoItems).STR_INDEX s o)
        ↔ ∃ item ∈ demoItems, ∃ v ∈ demoDeps.Row item, s <:+: demoDeps.toLower v)) ∧
    (∀ item ∈ demoItems, ∀ v ∈ demoDeps.Row item, ∀ s : Str, s ≠ [] →
      s <:+: demoDeps.toLower v →
      ∃ o, occursAt (makeIndex demoDeps demoItems).STR_INDEX s o ∧
        ∃ k, getStringFromIndex (makeIndex demoDeps demoItems).STR_INDEX o = some k ∧
          item ∈ mapIndex (makeIndex demoDeps demoItems).LOOKUP k) :=
  makeIndex_index_consistent demoDeps demoDeps_sortSpec demoDeps_rangeSpec asciiLower_zeroFree
    demoItems (by decide)

/-- C5. `getStringFromIndex` returns the enclosing token: for keys without a zero byte and
the blob `"\x00" + join(keys, "\x00") + "\x00"`, at every offset pointing at a byte of the
`j`-th key (`r` bytes into it) the result is exactly `keys[j]`. -/
theorem getStringFromIndex_token (keys : List Str) (hz : ∀ k ∈ keys, (0 : UInt8) ∉ k)
    (j : Nat) (hj : j < keys.length) (r : Nat) (hr : r < (keys.get ⟨j, hj⟩).length) :
    getStringFromIndex (indexBlob keys) (keyOffset keys j + r) = some (keys.get ⟨j, hj⟩) := by
  have hsplit : keys = keys.take j ++ keys.get ⟨j, hj⟩ :: keys.drop (j + 1) := by
    simp
  obtain ⟨rest, hb⟩ := indexBlob_split (keys.take j) (keys.get ⟨j, hj⟩) (keys.drop (j + 1))
  rw [← hsplit] at hb
  have hoff : keyOffset keys j = (heads (keys.take j)).length + 1 := by
    rw [heads_length, keyOffset]; omega
  rw [hb, hoff]
  exact getStringFromIndex_between _ _ _ (hz _ (List.get_mem keys j hj)) r hr

/-- Witness of C5: the second byte of the key `"cd"` in the blob of `"ab"`, `"cd"`. -/
theorem getStringFromIndex_token_witness :
    getStringFromIndex (indexBlob [[97, 98], [99, 100]]) (keyOffset [[97, 98], [99, 100]] 1 + 1)
      = some [99, 100] :=
  getStringFromIndex_token [[97, 98], [99, 100]] (by decide) 1 (by decide) 1 (by decide)

/-- C10, where the code departs from it: at the last byte of the blob `getStringFromIndex`
is not defined. Whatever the keys, the loop looking for a separator to the right does not
run, `end` keeps its initial value `0` while `start` is at least `1`, and the slice
`data[start:end]` panics. -/
theorem getStringFromIndex_last_offset (keys : List Str) :
    ∃ start, getBounds (indexBlob keys) ((indexBlob keys).length - 1) = some (start, 0) ∧
      0 < start ∧ getStringFromIndex (indexBlob keys) ((indexBlob keys).length - 1) = none := by
  obtain ⟨mid, hmid⟩ := indexBlob_shape keys
  have hlen : (indexBlob keys).length = mid.length + 2 := by rw [hmid]; simp
  have h0 : (indexBlob keys)[0]? = some 0 := by rw [hmid]; simp
  obtain ⟨s, hs, hpos⟩ := scanStart_pos (indexBlob keys) h0 mid.length (by omega)
  have hidx : (indexBlob keys).length - 1 = mid.length + 1 := by omega
  have hdrop : (indexBlob keys).drop (mid.length + 1 + 1) = [] :=
    List.drop_of_length_le (by omega)
  refine ⟨s, ?_, hpos, ?_⟩
  · rw [hidx]
    simp [getBounds, hs, hdrop, scanEnd]
  · rw [hidx]
    have hc : ¬ (s ≤ 0 ∧ 0 ≤ (indexBlob keys).length) := by omega
    simp only [getStringFromIndex, getBounds, hs, hdrop, scanEnd]
    rw [if_neg hc]

/-! ## `makeIndex`: the sort -/

/-- C6, as amended. With `sort.Slice` behaving as documented, `ITEMS` after `makeIndex` is a
permutation of `ITEMS` before it and is in non-decreasing order of `GetIndex()`; the items
of each index key are the same before and after, in an order `sort.Slice` does not fix. -/
theorem makeIndex_sorts {Item : Type} (d : Deps Item) (hsort : SortSliceSpec d)
    (ITEMS : List Item) :
    (makeIndex d ITEMS).ITEMS.Perm ITEMS ∧
    (makeIndex d ITEMS).ITEMS.Pairwise
      (fun a b => strLess (d.GetIndex b) (d.GetIndex a) = false) ∧
    (∀ k : Str, ((makeIndex d ITEMS).ITEMS.filter (fun x => d.GetIndex x = k)).Perm
      (ITEMS.filter (fun x => d.GetIndex x = k))) :=
  ⟨(hsort ITEMS).1, (hsort ITEMS).2, fun _ => (hsort ITEMS).1.filter _⟩

/-- Witness of the amended C6 on the seven demo records. -/
theorem makeIndex_sorts_witness :
    (makeIndex demoDeps demoItems).ITEMS.Perm demoItems ∧
    (makeIndex demoDeps demoItems).ITEMS.Pairwise
      (fun a b => strLess (demoDeps.GetIndex b) (demoDeps.GetIndex a) = false) ∧
    (∀ k : Str, ((makeIndex demoDeps demoItems).ITEMS.filter
        (fun x => demoDeps.GetIndex x = k)).Perm
      (demoItems.filter (fun x => demoDeps.GetIndex x = k))) :=
  makeIndex_sorts demoDeps demoDeps_sortSpec demoItems

/-- C6 as stated does not hold: `sort.Slice` is not a stable sort. With the `sort.Slice` of the Go
releases up to 1.18, `makeIndex` on seven records puts the second record of index key `"b"`
before the first one, although that routine meets the contract of `sort.Slice`. -/
theorem makeIndex_not_stable :
    ¬ (∀ d : Deps DemoItem, SortSliceSpec d → ∀ ITEMS : List DemoItem,
        (makeIndex d ITEMS).ITEMS.Perm ITEMS ∧
        (makeIndex d ITEMS).ITEMS.Pairwise
          (fun a b => strLess (d.GetIndex b) (d.GetIndex a) = false) ∧
        KeepsOrder d ITEMS (makeIndex d ITEMS).ITEMS) := by
  intro h
  have h2 := (h demoDeps demoDeps_sortSpec demoItems).2.2 [98]
  revert h2
  decide

/-! ## The add handler -/

theorem validateBatch_nonnil {Item : Type} [DecidableEq Item] (zero : Item)
    (strictMode : Bool) (items : List Item) :
    validateBatch zero strictMode (items.map some)
      = if strictMode = true ∧ zero ∈ items then Validation.reject else Validation.pass := by
  induction items with
  | nil => simp [validateBatch]
  | cons x xs ih =>
    simp only [List.map_cons, validateBatch, ih, List.mem_cons]
    by_cases hx : x = zero
    · subst hx
      cases strictMode <;> simp
    · have hx' : ¬ zero = x := fun e => hx e.symm
      simp [hx, hx']

/-- On a decoded batch without nil entries the add handler does what C1 says: the batch is
sent exactly when strict mode is off or no item equals `Item{}`; in strict mode with such an
item the status is 406 and nothing is sent; otherwise the whole batch is sent unchanged and
the status is 204. -/
theorem contextAddRest_nonnil {Item : Type} [DecidableEq Item] (zero : Item)
    (strictMode : Bool) (items : List Item) :
    (((contextAddRest zero strictMode (some (items.map some))).sent.isSome = true)
      ↔ (strictMode = false ∨ zero ∉ items)) ∧
    (strictMode = true ∧ zero ∈ items →
      contextAddRest zero strictMode (some (items.map some))
        = { status := some 406, sent := none, panicked := false }) ∧
    (¬ (strictMode = true ∧ zero ∈ items) →
      contextAddRest zero strictMode (some (items.map some))
        = { status := some 204, sent := some (items.map some), panicked := false }) := by
  simp only [contextAddRest, validateBatch_nonnil]
  by_cases h : strictMode = true ∧ zero ∈ items
  · simp only [if_pos h]
    refine ⟨?_, fun _ => trivial, fun h2 => absurd h h2⟩
    obtain ⟨h1, h2⟩ := h
    simp [h1, h2]
  · simp only [if_neg h]
    refine ⟨?_, fun h2 => absurd h2 h, fun _ => trivial⟩
    simp only [Option.isSome_some, true_iff]
    by_cases hs : strictMode = true
    · exact Or.inr (fun hz => h ⟨hs, hz⟩)
    · exact Or.inl (by simpa using hs)

/-- C1, where the code departs from it: on a decoded batch that starts with a nil entry (the
JSON body `[null]` decodes to one), whatever the mode and whatever follows the entry, the
dereference `*item` panics, so no status is written and nothing is sent, also when strict
mode is off and no item equals `Item{}`. -/
theorem contextAddRest_nil_entry {Item : Type} [DecidableEq Item] (zero : Item)
    (strictMode : Bool) (rest : List (Option Item)) :
    contextAddRest zero strictMode (some (none :: rest))
      = { status := none, sent := none, panicked := true } := by
  simp [contextAddRest, validateBatch]

/-! ## The load handler -/

/-- The three I/O failures return before `ITEMS` is assigned: the state is untouched. -/
theorem loadRest_io_failure {Item : Type} (d : Deps Item)
    (jsonUnmarshal : Str → List Item → List Item × Bool) (indexed : Bool)
    (st : IndexState Item) :
    (loadRest d jsonUnmarshal indexed Snapshot.openFails st).1 = st ∧
    (loadRest d jsonUnmarshal indexed Snapshot.gzipFails st).1 = st ∧
    (loadRest d jsonUnmarshal indexed Snapshot.readFails st).1 = st :=
  ⟨rfl, rfl, rfl⟩

/-- C2, where the code departs from it: when the payload cannot be deserialized, `ITEMS` has
been replaced by an empty slice before `json.Unmarshal` runs and its error is dropped. With the seven demo records in
memory and a payload that `json.Unmarshal` rejects, the load fails and `ITEMS` is empty
afterwards. -/
theorem loadRest_unmarshal_failure :
    loadFails rejectAll (Snapshot.payload [120]) = true ∧
    (loadRest demoDeps rejectAll false (Snapshot.payload [120])
      ⟨demoItems, [], [], []⟩).1.ITEMS = [] ∧
    demoItems ≠ [] := by
  decide

/-! ## The search handler -/

/-- C7, where the code departs from it: when the query matches an item and `sortLimit`
returns an empty slice, the handler writes status 200 and then panics in `makeResp`, which
reads `items[0]`. -/
theorem contextSearchRest_empty_page {Item Query R : Type} (o : Ops Item Query R)
    (ITEMS : List Item) (r : Request Query) (hmatch : o.runQuery ITEMS r.query ≠ [])
    (hexit : o.EarlyExit r.query = false)
    (hpage : o.sortLimit (o.runQuery ITEMS r.query) r.query = []) :
    makeResp o.Columns (o.sortLimit (o.runQuery ITEMS r.query) r.query) = none ∧
    contextSearchRest o ITEMS r = Reply.panic (some 200) := by
  have hlen : ¬ (o.runQuery ITEMS r.query).length = 0 := by
    intro h; exact hmatch (List.length_eq_zero.1 h)
  refine ⟨by rw [hpage]; rfl, ?_⟩
  unfold contextSearchRest
  simp only [hlen, if_false, hexit, Bool.not_false, if_true, hpage]
  rfl

/-- Witness of the departure from C7: seven matching records and page 100. -/
theorem contextSearchRest_empty_page_witness :
    makeResp demoOps.Columns (demoOps.sortLimit (demoOps.runQuery demoItems 100) 100) = none ∧
    contextSearchRest demoOps demoItems ⟨100, [], none, none⟩ = Reply.panic (some 200) :=
  contextSearchRest_empty_page demoOps demoItems ⟨100, [], none, none⟩ (by decide) rfl rfl

/-! ## The typeahead handler -/

/-- For a non-empty `rest` the typeahead handler does what C8 says: when `rest` with one
trailing `'/'` removed is not a registered getter the status is 404 and no typeahead query
runs. -/
theorem contextTypeAheadRest_unknown {Item Query R : Type} (o : Ops Item Query R)
    (ITEMS : List Item) (query : Query) (g rd : Option Str) (rest : Str) (hne : rest ≠ [])
    (hunknown : mapGet o.Getters
      (if rest.getLast? = some 47 then rest.dropLast else rest) = none) :
    contextTypeAheadRest o ITEMS ⟨query, typeaheadRoute ++ rest, g, rd⟩ = Reply.done 404 none := by
  have hcol : typeaheadColumn (typeaheadRoute ++ rest)
      = some (if rest.getLast? = some 47 then rest.dropLast else rest) := by
    unfold typeaheadColumn
    have h1 : ¬ (typeaheadRoute ++ rest).length < typeaheadRoute.length := by simp
    rw [if_neg h1]
    simp only [List.drop_left]
    obtain ⟨last, hlast⟩ : ∃ last, rest.getLast? = some last := by
      cases h : rest.getLast? with
      | none => exact absurd (List.getLast?_eq_none_iff.1 h) hne
      | some last => exact ⟨last, rfl⟩
    rw [hlast]
    by_cases h47 : last = 47
    · simp [h47]
    · simp [h47]
  unfold contextTypeAheadRest
  simp only [hcol, hunknown]

/-- C8, where the code departs from it: for the empty `rest`, that is on the path
`"/typeahead/"`, the column name is empty and `column[len(column)-1]` panics before any
status is written. -/
theorem contextTypeAheadRest_empty_column {Item Query R : Type} (o : Ops Item Query R)
    (ITEMS : List Item) (query : Query) (g rd : Option Str) :
    typeaheadColumn typeaheadRoute = none ∧
    contextTypeAheadRest o ITEMS ⟨query, typeaheadRoute, g, rd⟩ = Reply.panic none := by
  have h : typeaheadColumn typeaheadRoute = none := by decide
  refine ⟨h, ?_⟩
  unfold contextTypeAheadRest
  simp only [h]

/-! ## The list handler -/

theorem mapSet_ne_nil {V : Type} (m : GoMap V) (k : Str) (v : V) : mapSet m k v ≠ [] := by
  cases m with
  | nil => simp [mapSet]
  | cons e m =>
    obtain ⟨k', v'⟩ := e
    unfold mapSet
    split <;> simp

theorem foldl_reduce_ne_nil {Item R : Type} (reduceFunc : List Item → R)
    (groups : GoMap (List Item)) (acc : GoMap R) (h : acc ≠ []) :
    groups.foldl (fun result kv => mapSet result kv.1 (reduceFunc kv.2)) acc ≠ [] := by
  induction groups generalizing acc with
  | nil => exact h
  | cons e groups ih => exact ih _ (mapSet_ne_nil _ _ _)

theorem reduceGroups_eq_nil {Item R : Type} (reduceFunc : List Item → R)
    (groups : GoMap (List Item)) : reduceGroups reduceFunc groups = [] ↔ groups = [] := by
  cases groups with
  | nil => simp [reduceGroups]
  | cons e groups =>
    simp only [reduceGroups, List.foldl_cons, reduceCtorEq, iff_false]
    exact foldl_reduce_ne_nil reduceFunc groups _ (mapSet_ne_nil _ _ _)

theorem mapGet_eq_none {V : Type} (m : GoMap V) (k : Str) (h : k ∉ mapKeys m) :
    mapGet m k = none := by
  have := (mem_mapKeys_iff m k).not.1 h
  simpa using this

theorem foldl_reduce_get {Item R : Type} (reduceFunc : List Item → R)
    (groups : GoMap (List Item)) (hnd : (mapKeys groups).Nodup) (acc : GoMap R) (k : Str) :
    mapGet (groups.foldl (fun result kv => mapSet result kv.1 (reduceFunc kv.2)) acc) k
      = ((mapGet groups k).map reduceFunc).orElse (fun _ => mapGet acc k) := by
  induction groups generalizing acc with
  | nil => simp [mapGet]
  | cons e groups ih =>
    obtain ⟨k1, v1⟩ := e
    have hnd' : k1 ∉ mapKeys groups ∧ (mapKeys groups).Nodup := by
      simpa [mapKeys] using hnd
    rw [List.foldl_cons, ih hnd'.2, mapGet_mapSet]
    by_cases hk : k1 = k
    · subst hk
      simp [mapGet, mapGet_eq_none groups k1 hnd'.1]
    · simp [mapGet, hk]

theorem reduceGroups_get {Item R : Type} (reduceFunc : List Item → R)
    (groups : GoMap (List Item)) (hnd : (mapKeys groups).Nodup) (k : Str) :
    mapGet (reduceGroups reduceFunc groups) k = (mapGet groups k).map reduceFunc := by
  unfold reduceGroups
  rw [foldl_reduce_get reduceFunc groups hnd [] k]
  cases mapGet groups k <;> simp [mapGet]

/-- C9, as amended. For a request naming a registered reducer: with a groupby whose grouped
result is not empty, the body is the mapping with exactly the keys of the grouped result,
each key `k` mapped to the reducer applied to the items of group `k`; with a groupby whose
grouped result is empty no body is written; without a groupby the reducer is not applied and
the body is the unreduced item list (as CSV or JSON). -/
theorem contextListRest_reduce {Item Query R : Type} (o : Ops Item Query R)
    (Row : Item → List Str) (ITEMS : List Item) (r : Request Query) (reduceName : Str)
    (reduceFunc : List Item → R) (hname : r.reduce = some reduceName)
    (hreg : mapGet o.Reduce reduceName = some reduceFunc) :
    (∀ groupBy : Str, r.groupby = some groupBy →
      (mapKeys (o.groupByRunner (listItems o ITEMS r) groupBy)).Nodup →
      (o.groupByRunner (listItems o ITEMS r) groupBy ≠ [] →
        (contextListRest o Row ITEMS r).2 = some (ListBody.reduced
          (reduceGroups reduceFunc (o.groupByRunner (listItems o ITEMS r) groupBy))) ∧
        ∀ k : Str,
          mapGet (reduceGroups reduceFunc (o.groupByRunner (listItems o ITEMS r) groupBy)) k
            = (mapGet (o.groupByRunner (listItems o ITEMS r) groupBy) k).map reduceFunc) ∧
      (o.groupByRunner (listItems o ITEMS r) groupBy = [] →
        (contextListRest o Row ITEMS r).2 = none)) ∧
    (r.groupby = none →
      (contextListRest o Row ITEMS r).2
        = some (if o.returnsCsv r.query = true then ListBody.csv ((listItems o ITEMS r).map Row)
                else ListBody.items (listItems o ITEMS r))) := by
  constructor
  · intro groupBy hg hnd
    constructor
    · intro hne
      refine ⟨?_, reduceGroups_get reduceFunc _ hnd⟩
      have hlen : ¬ (reduceGroups reduceFunc
          (o.groupByRunner (listItems o ITEMS r) groupBy)).length = 0 := by
        intro h
        exact hne ((reduceGroups_eq_nil reduceFunc _).1 (List.length_eq_zero.1 h))
      simp only [contextListRest, hg, hname, hreg, hlen, if_false]
    · intro hnil
      simp [contextListRest, hg, hname, hreg, hnil, reduceGroups]
  · intro hg
    simp only [contextListRest, hg]
    split <;> rfl

/-- Witness of the amended C9: the seven demo records grouped by index key and reduced with
the registered reducer `"n"`. -/
theorem contextListRest_reduce_witness :
    (∀ groupBy : Str, (⟨1, [], some [107], some [110]⟩ : Request Nat).groupby = some groupBy →
      (mapKeys (demoOps.groupByRunner
        (listItems demoOps demoItems ⟨1, [], some [107], some [110]⟩) groupBy)).Nodup →
      (demoOps.groupByRunner (listItems demoOps demoItems ⟨1, [], some [107], some [110]⟩)
          groupBy ≠ [] →
        (contextListRest demoOps DemoItem.row demoItems ⟨1, [], some [107], some [110]⟩).2
          = some (ListBody.reduced (reduceGroups List.length (demoOps.groupByRunner
              (listItems demoOps demoItems ⟨1, [], some [107], some [110]⟩) groupBy))) ∧
        ∀ k : Str,
          mapGet (reduceGroups List.length (demoOps.groupByRunner
              (listItems demoOps demoItems ⟨1, [], some [107], some [110]⟩) groupBy)) k
            = (mapGet (demoOps.groupByRunner
              (listItems demoOps demoItems ⟨1, [], some [107], some [110]⟩) groupBy) k).map
                List.length) ∧
      (demoOps.groupByRunner (listItems demoOps demoItems ⟨1, [], some [107], some [110]⟩)
          groupBy = [] →
        (contextListRest demoOps DemoItem.row demoItems
          ⟨1, [], some [107], some [110]⟩).2 = none)) ∧
    ((⟨1, [], some [107], some [110]⟩ : Request Nat).groupby = none →
      (contextListRest demoOps DemoItem.row demoItems ⟨1, [], some [107], some [110]⟩).2
        = some (if demoOps.returnsCsv 1 = true
                then ListBody.csv ((listItems demoOps demoItems
                  ⟨1, [], some [107], some [110]⟩).map DemoItem.row)
                else ListBody.items (listItems demoOps demoItems
                  ⟨1, [], some [107], some [110]⟩))) :=
  contextListRest_reduce demoOps DemoItem.row demoItems ⟨1, [], some [107], some [110]⟩
    [110] List.length rfl rfl

/-- C9 as stated does not hold without a groupby: the body is then never anything but the unreduced
item list. For a request that names the registered reducer `"n"` and gives no groupby, the
body is the list of the seven demo records. -/
theorem contextListRest_ignores_reducer :
    ¬ (∀ (o : Ops DemoItem Nat Nat) (ITEMS : List DemoItem) (r : Request Nat)
        (reduceName : Str) (reduceFunc : List DemoItem → Nat),
        r.reduce = some reduceName → mapGet o.Reduce reduceName = some reduceFunc →
        r.groupby = none →
        (contextListRest o DemoItem.row ITEMS r).2 ≠ some (ListBody.items (listItems o ITEMS r))) := by
  intro h
  exact h demoOps demoItems ⟨1, [], none, some [110]⟩ [110] List.length rfl rfl rfl rfl

end LambdaDB
